import Mathlib

/-!
Verification of the archive-normalization core of reproducibly.py.

The development shallowly embeds the pure content of the functions
`cleanse_metadata`, `breadth_first_key`, `key`, `zipumask`, `_sortwheel`
and the epoch selection in `main` from src/reproducibly.py.  Machine
integers are modelled as `Nat`/`Int` (Python integers are unbounded, so no
wrap-around is involved), the floating-point epoch as `ℚ`, byte strings as
`List Nat`, and text as `String` (a list of unicode code points, compared
pointwise exactly as Python compares `str`).
-/

namespace Reproducibly

/-- Python `x & ~y` on non-negative integers: clear in `x` every bit set in
`y`.  Since `x &&& y` extracts exactly the cleared bits, xor-ing them away
is the same operation, expressed without a complement on unbounded `Nat`. -/
def andNotN (x y : Nat) : Nat := x ^^^ (x &&& y)

/-- stat.S_IWGRP, the group-write permission bit (0o020). -/
def S_IWGRP : Nat := 0o020

/-- stat.S_IWOTH, the other-write permission bit (0o002). -/
def S_IWOTH : Nat := 0o002

/-- Strict lexicographic comparison of two lists given a strict comparison
of their elements: first differing element decides, a strict prefix is
smaller.  This is exactly how Python compares two lists or two strings
element by element. -/
def lexLtB (lt : α → α → Bool) : List α → List α → Bool
  | [], [] => false
  | [], _ :: _ => true
  | _ :: _, [] => false
  | a :: as, b :: bs => if lt a b then true else if lt b a then false else lexLtB lt as bs

/-- Python string comparison on the underlying code points. -/
def charLtB : List Char → List Char → Bool := lexLtB (fun a b => decide (a < b))

/-- Python `s < t` for `str` values. -/
def strLtB (s t : String) : Bool := charLtB s.data t.data

/-- Python `needle in hay` for a list of code points: does `needle` occur
contiguously inside `hay`? -/
def hasInfixAux (needle : List Char) : List Char → Bool
  | [] => needle.isEmpty
  | c :: rest => needle.isPrefixOf (c :: rest) || hasInfixAux needle rest

/-- Python `needle in hay` for `str` values. -/
def strContains (hay needle : String) : Bool := hasInfixAux needle.data (hay.data)

/-- Python `s.endswith(suffix)`. -/
def endsWithB (s suf : String) : Bool := suf.data.isSuffixOf s.data

/-- Python `s.removeprefix(pre)`: drop `pre` when it is a leading part of
`s`, otherwise return `s` unchanged. -/
def removePre (s pre : String) : String :=
  if pre.data.isPrefixOf s.data then ⟨s.data.drop pre.data.length⟩ else s

/-- Python `path.partition("/")` restricted to what the source consumes:
`none` when the path holds no slash, otherwise `some (start, end)` with
`start` the text before the first slash and `end` the text after it. -/
def splitSlash : List Char → Option (List Char × List Char)
  | [] => none
  | c :: rest =>
      if c = '/' then some ([], rest)
      else (splitSlash rest).map (fun p => (c :: p.1, p.2))

/-- The value of `breadth_first_key` (src/reproducibly.py lines 239-241):
a nested heterogeneous Python list, either `[sep, start]` or
`[sep, start, rest]` with `rest` again such a list. -/
inductive BFList where
  | two (sep start : String) : BFList
  | three (sep start : String) (rest : BFList) : BFList
deriving DecidableEq

/-- Recursive worker for `breadth_first_key`: scan for the first slash,
accumulating the characters of `start` in reverse.  `path.partition("/")`
gives `(start, sep, end)`; the source returns `[sep, start, key(end)]`
when `end` is non-empty and `[sep, start]` otherwise. -/
def bfkAux : List Char → List Char → BFList
  | acc, [] => .two "" ⟨acc.reverse⟩
  | acc, c :: rest =>
      if c = '/' then
        match rest with
        | [] => .two "/" ⟨acc.reverse⟩
        | _ :: _ => .three "/" ⟨acc.reverse⟩ (bfkAux [] rest)
      else bfkAux (c :: acc) rest

/-- src/reproducibly.py lines 239-241:
`start, sep, end = path.partition("/")`;
`return [sep, start, breadth_first_key(end)] if end else [sep, start]`. -/
def breadth_first_key (path : String) : BFList := bfkAux [] path.data

/-- The key of `breadth_first_key` flattened into the sequence of strings
it holds, in order.  Comparing two flattened keys lexicographically agrees
with the element-wise comparison Python performs on the nested lists,
because each nesting level contributes its two strings before the nested
tail, and a two-element list is a proper prefix of a three-element list
that shares those two strings. -/
def flattenKey : BFList → List String
  | .two sep st => [sep, st]
  | .three sep st rest => sep :: st :: flattenKey rest

/-- Python `<` on two `breadth_first_key` values, element by element as
Python compares lists: the separator decides first, then the leading
segment, and a two-element key that agrees on both is a proper prefix of a
three-element key and therefore smaller. -/
def bflistLtB : BFList → BFList → Bool
  | .two s a, .two t b =>
      if strLtB s t then true else if strLtB t s then false else
      if strLtB a b then true else if strLtB b a then false else false
  | .two s a, .three t b _ =>
      if strLtB s t then true else if strLtB t s then false else
      if strLtB a b then true else if strLtB b a then false else true
  | .three s a _, .two t b =>
      if strLtB s t then true else if strLtB t s then false else
      if strLtB a b then true else if strLtB b a then false else false
  | .three s a r, .three t b q =>
      if strLtB s t then true else if strLtB t s then false else
      if strLtB a b then true else if strLtB b a then false else
      bflistLtB r q

/-- The group component of `key` (src/reproducibly.py lines 251-256):
3 when the path holds the substring "/RECORD", else 2 when it holds
"dist-info", else 1. -/
def group (path : String) : Nat :=
  if strContains path "/RECORD" then 3
  else if strContains path "dist-info" then 2
  else 1

/-- Python `item.split(",")[0]`: the text before the first comma, the
whole string when no comma occurs. -/
def beforeComma (s : String) : String := ⟨s.data.takeWhile (fun c => !(c == ','))⟩

/-- Python `bytes.decode()` restricted to the code points the archive
holds: each byte value becomes the character with that code. -/
def decodeBytes (l : List Nat) : String := ⟨l.map Char.ofNat⟩

/-- Python `str` to bytes, byte value of each code point. -/
def encodeStr (s : String) : List Nat := s.data.map Char.toNat

/-- `key` (src/reproducibly.py lines 244-257) on a `ZipInfo` member name
or a plain path: `item = path`, the group is classified from the path and
the structural component is `breadth_first_key(item)`. -/
def keyPath (path : String) : Nat × BFList := (group path, breadth_first_key path)

/-- `key` (src/reproducibly.py lines 244-257) on a `bytes` line of a
RECORD file: `item = input_.decode()`, `path = item.split(",")[0]`; the
group is classified from `path` while the structural component is
`breadth_first_key(item)` of the whole line. -/
def keyLine (line : List Nat) : Nat × BFList :=
  (group (beforeComma (decodeBytes line)), breadth_first_key (decodeBytes line))

/-- Python `<` on two values of `key`: tuples compare element-wise, the
integer group first, then the nested list. -/
def keyLtB (k l : Nat × BFList) : Bool :=
  if k.1 < l.1 then true else if l.1 < k.1 then false else bflistLtB k.2 l.2

/-- The ascending order `sorted(paths, key=key)` arranges paths by:
`a` may precede `b` exactly when `key(b) < key(a)` fails. -/
def pathLe (a b : String) : Prop := keyLtB (keyPath b) (keyPath a) = false

instance : DecidableRel pathLe := fun a b => instDecidableEqBool (keyLtB (keyPath b) (keyPath a)) false

/-- Python `sorted(paths, key=key)`: a stable sort by the combined key.
Any stable sort computes the same list, so insertion sort models it. -/
def sortPaths (l : List String) : List String := l.insertionSort pathLe

/-- One member of a tar archive: the fields of `tarfile.TarInfo` that
`cleanse_metadata` touches or preserves, plus the member content. -/
structure TarInfo where
  path : String
  mode : Nat
  uid : Nat
  gid : Nat
  uname : String
  gname : String
  mtime : Int
  content : List Nat
deriving DecidableEq

/-- src/reproducibly.py line 72: `datetime(1980, 1, 1, 0, 0, 0).timestamp()`,
annotated in the source as 315532800.0, the earliest timestamp zip files
support. -/
def EARLIEST : ℚ := 315532800

/-- Python `int()` on a float: truncation toward zero. -/
def pyInt (q : ℚ) : Int := if 0 ≤ q then ⌊q⌋ else -⌊-q⌋

/-- `filter_` (src/reproducibly.py lines 204-210): set the member mtime to
`int(mtime)`, zero the ids, name owner and group "root", clear the
group-write and other-write mode bits, and strip the scratch-directory
part from the stored path. -/
def filter_ (scratch : String) (mtime : ℚ) (t : TarInfo) : TarInfo :=
  { t with
    mtime := pyInt mtime
    uid := 0
    gid := 0
    uname := "root"
    gname := "root"
    mode := andNotN (andNotN t.mode S_IWGRP) S_IWOTH
    path := removePre t.path scratch }

/-- The combined effect of `filter_` on one member during the rebuild:
the scratch part put in front of the stored path by the extraction is
stripped again, so the path survives unchanged and only the metadata
fields are rewritten. -/
def pureFilter (mtime : ℚ) (t : TarInfo) : TarInfo :=
  { t with
    mtime := pyInt mtime
    uid := 0
    gid := 0
    uname := "root"
    gname := "root"
    mode := andNotN (andNotN t.mode S_IWGRP) S_IWOTH }

/-- Split a path into its slash-separated components. -/
def splitSegAux : List Char → List Char → List (List Char)
  | acc, [] => [acc.reverse]
  | acc, c :: rest =>
      if c = '/' then acc.reverse :: splitSegAux [] rest
      else splitSegAux (c :: acc) rest

/-- The order in which `tar.add(extracted, filter=filter_)` re-adds the
extracted members (src/reproducibly.py lines 212-213): `tarfile` walks the
tree with sorted directory listings, a directory before its children,
which enumerates paths in lexicographic order of their component lists. -/
def walkLe (t u : TarInfo) : Prop :=
  lexLtB charLtB (splitSegAux [] u.path.data) (splitSegAux [] t.path.data) = false

instance : DecidableRel walkLe := fun t u =>
  instDecidableEqBool (lexLtB charLtB (splitSegAux [] u.path.data) (splitSegAux [] t.path.data)) false

/-- A gzip-compressed tar archive as `cleanse_metadata` observes it: the
stored members (paths relative to the single extracted root), the
modification time embedded in the gzip header, and the modification and
access times of the archive file itself. -/
structure SdistArchive where
  entries : List TarInfo
  gzipMtime : ℚ
  fileMtime : ℚ
  fileAtime : ℚ
deriving DecidableEq

/-- `cleanse_metadata` (src/reproducibly.py lines 180-219).  The epoch is
clamped by `mtime = max(mtime, EARLIEST)` (line 192).  The archive is
extracted into a scratch directory, so during the rebuild each member path
carries the scratch part in front, which `filter_` strips again (lines
202-213); the rebuild enumerates members in the sorted walk order of
`tar.add`.  The rebuilt tar stream is gzip-compressed with the clamped
epoch as gzip header mtime (line 215) and the file times are set to the
same epoch by `utime` (line 218). -/
def cleanse_metadata (scratch : String) (a : SdistArchive) (mtime : ℚ) : SdistArchive :=
  { entries := (a.entries.insertionSort walkLe).map
      (fun t => filter_ scratch (max mtime EARLIEST) { t with path := scratch ++ t.path })
    gzipMtime := max mtime EARLIEST
    fileMtime := max mtime EARLIEST
    fileAtime := max mtime EARLIEST }

/-- One member of a zip archive: the fields of `zipfile.ZipInfo` that
`zipumask` and `_sortwheel` touch or preserve, plus the uncompressed
member data. -/
structure ZipEntry where
  filename : String
  external_attr : Nat
  data : List Nat
deriving DecidableEq

/-- `zipumask` (src/reproducibly.py lines 270-287) on the member list of a
zip archive: every member is copied with
`external_attr = external_attr & ~(umask << 16)` and unchanged data. -/
def zipumask (z : List ZipEntry) (umask : Nat) : List ZipEntry :=
  z.map (fun m => { m with external_attr := andNotN m.external_attr (umask <<< 16) })

/-- Python `bytes.splitlines(keepends=True)`: cut after every line
terminator (LF, CR, or the pair CR LF), keeping the terminators; a final
piece without terminator is kept as well, and the empty byte string has no
lines. -/
def splitlinesAux : List Nat → List Nat → List (List Nat)
  | acc, [] => if acc.isEmpty then [] else [acc.reverse]
  | acc, 13 :: 10 :: rest => (acc.reverse ++ [13, 10]) :: splitlinesAux [] rest
  | acc, 13 :: rest => (acc.reverse ++ [13]) :: splitlinesAux [] rest
  | acc, 10 :: rest => (acc.reverse ++ [10]) :: splitlinesAux [] rest
  | acc, b :: rest => splitlinesAux (b :: acc) rest

/-- Python `data.splitlines(keepends=True)` on a byte string. -/
def splitlinesKE (d : List Nat) : List (List Nat) := splitlinesAux [] d

/-- The ascending order `sorted(original.infolist(), key=key)` uses. -/
def zipLe (x y : ZipEntry) : Prop := keyLtB (keyPath y.filename) (keyPath x.filename) = false

instance : DecidableRel zipLe := fun x y =>
  instDecidableEqBool (keyLtB (keyPath y.filename) (keyPath x.filename)) false

/-- The ascending order `sorted(data.splitlines(keepends=True), key=key)`
uses on the lines of a RECORD file. -/
def lineLe (x y : List Nat) : Prop := keyLtB (keyLine y) (keyLine x) = false

instance : DecidableRel lineLe := fun x y =>
  instDecidableEqBool (keyLtB (keyLine y) (keyLine x)) false

/-- `_sortwheel` (src/reproducibly.py lines 336-369) on the member list of
a wheel: members are rewritten in sorted key order, and a member whose
name ends in "RECORD" has its data replaced by the concatenation of its
lines sorted by the same key. -/
def _sortwheel (z : List ZipEntry) : List ZipEntry :=
  (z.insertionSort zipLe).map (fun m =>
    if endsWithB m.filename "RECORD" then
      { m with data := ((splitlinesKE m.data).insertionSort lineLe).flatten }
    else m)

/-- The epoch `main` (src/reproducibly.py lines 374-380) passes to
`cleanse_metadata` for a repository input: the SOURCE_DATE_EPOCH override
parsed as a float when the variable is present, otherwise the time of the
latest commit. -/
def repo_epoch (sde : Option ℚ) (commitTime : ℚ) : ℚ :=
  match sde with
  | some v => v
  | none => commitTime

/-- `ModifiedEnvironment._update` (src/reproducibly.py lines 159-165) for
one key: a `none` value deletes the key, a `some` value overwrites it,
whatever the key held before. -/
def update_one (_current newValue : Option String) : Option String :=
  match newValue with
  | none => none
  | some s => some s

/-- The value of SOURCE_DATE_EPOCH seen by the wheel build of an sdist
input (src/reproducibly.py lines 381-388): `main` enters
`ModifiedEnvironment(SOURCE_DATE_EPOCH=latest_modification_time(sdist))`,
so the variable is set to the latest member mtime of the archive,
whatever it held before. -/
def sdist_build_env (before : Option String) (latestMtime : String) : Option String :=
  update_one before (some latestMtime)

/-- The filesystem locations `zipumask` and `_sortwheel` touch: the
archive path given by the caller and the working copy inside the fresh
temporary directory. -/
structure ArchiveFs where
  atPath : Option (List ZipEntry)
  scratch : Option (List ZipEntry)
deriving DecidableEq

/-- src/reproducibly.py lines 279-283: read every member of the archive
and write the rewritten members to the copy under the temporary
directory.  The archive path itself is untouched. -/
def zuWrite (fs : ArchiveFs) : ArchiveFs :=
  { fs with scratch := fs.atPath.map (fun z => zipumask z 0o022) }

/-- src/reproducibly.py lines 358-365 for `_sortwheel`: write the sorted
members to the intermediate file under the temporary directory. -/
def swWrite (fs : ArchiveFs) : ArchiveFs :=
  { fs with scratch := fs.atPath.map _sortwheel }

/-- src/reproducibly.py line 284 and 366: `path.unlink()` respectively
`wheel.unlink()` delete the original archive. -/
def fsUnlink (fs : ArchiveFs) : ArchiveFs := { fs with atPath := none }

/-- src/reproducibly.py line 285 and 367: `move(copy, path)` places the
working copy at the archive path; the temporary directory is then freed. -/
def fsMove (fs : ArchiveFs) : ArchiveFs := { atPath := fs.scratch, scratch := none }

/-- The ordered filesystem effects of `zipumask` (lines 277-285). -/
def zipumaskSteps : List (ArchiveFs → ArchiveFs) := [zuWrite, fsUnlink, fsMove]

/-- The ordered filesystem effects of `_sortwheel` (lines 356-367). -/
def sortwheelSteps : List (ArchiveFs → ArchiveFs) := [swWrite, fsUnlink, fsMove]

/-- Run a leading part of an effect sequence. -/
def runSteps (steps : List (ArchiveFs → ArchiveFs)) (fs : ArchiveFs) : ArchiveFs :=
  steps.foldl (fun s f => f s) fs

/-- Modelled from the spec for the counterexample to the claim wording
"paths containing a segment with RECORD in them": some slash-separated
component of the path holds the substring "RECORD". -/
def specRecordSegment (path : String) : Bool :=
  (splitSegAux [] path.data).any (fun seg => strContains ⟨seg⟩ "RECORD")

/-- Rebuilding a string from its code points is the identity. -/
theorem strEta (s : String) : String.mk s.data = s := by
  cases s
  rfl

/-- Strings with the same code points are equal. -/
theorem strExt {s t : String} (h : s.data = t.data) : s = t := by
  cases s
  cases t
  exact congrArg String.mk h

/-- A strict lexicographic comparison is asymmetric when the element
comparison is. -/
theorem lexLtB_asymm (lt : α → α → Bool) (hasy : ∀ a b, lt a b = true → lt b a = false) :
    ∀ u v, lexLtB lt u v = true → lexLtB lt v u = false := by
  intro u
  induction u with
  | nil =>
    intro v hv
    cases v with
    | nil => simp [lexLtB] at hv
    | cons b bs => simp [lexLtB]
  | cons a as ih =>
    intro v hv
    cases v with
    | nil => simp [lexLtB] at hv
    | cons b bs =>
      cases hab : lt a b with
      | true =>
        have hba := hasy a b hab
        simp [lexLtB, hba, hab]
      | false =>
        cases hba : lt b a with
        | true => simp [lexLtB, hab, hba] at hv
        | false =>
          simp [lexLtB, hab, hba] at hv ⊢
          exact ih bs hv

/-- When failing in both directions implies equality of elements, the
same holds for the lexicographic comparison of lists. -/
theorem lexLtB_conn (lt : α → α → Bool)
    (hconn : ∀ a b, lt a b = false → lt b a = false → a = b) :
    ∀ u v, lexLtB lt u v = false → lexLtB lt v u = false → u = v := by
  intro u
  induction u with
  | nil =>
    intro v huv hvu
    cases v with
    | nil => rfl
    | cons b bs => simp [lexLtB] at huv
  | cons a as ih =>
    intro v huv hvu
    cases v with
    | nil => simp [lexLtB] at hvu
    | cons b bs =>
      cases hab : lt a b with
      | true => simp [lexLtB, hab] at huv
      | false =>
        cases hba : lt b a with
        | true => simp [lexLtB, hba] at hvu
        | false =>
          simp [lexLtB, hab, hba] at huv hvu
          have he := hconn a b hab hba
          rw [he, ih bs huv hvu]

/-- The lexicographic comparison is transitive when the element
comparison is transitive and connected. -/
theorem lexLtB_trans (lt : α → α → Bool)
    (htr : ∀ a b c, lt a b = true → lt b c = true → lt a c = true)
    (hconn : ∀ a b, lt a b = false → lt b a = false → a = b) :
    ∀ u v w, lexLtB lt u v = true → lexLtB lt v w = true → lexLtB lt u w = true := by
  intro u
  induction u with
  | nil =>
    intro v w huv hvw
    cases v with
    | nil => simp [lexLtB] at huv
    | cons b bs =>
      cases w with
      | nil => simp [lexLtB] at hvw
      | cons c cs => simp [lexLtB]
  | cons a as ih =>
    intro v w huv hvw
    cases v with
    | nil => simp [lexLtB] at huv
    | cons b bs =>
      cases w with
      | nil => simp [lexLtB] at hvw
      | cons c cs =>
        cases hab : lt a b with
        | true =>
          cases hbc : lt b c with
          | true => simp [lexLtB, htr a b c hab hbc]
          | false =>
            cases hcb : lt c b with
            | true => simp [lexLtB, hbc, hcb] at hvw
            | false =>
              have he : b = c := hconn b c hbc hcb
              subst he
              simp [lexLtB, hab]
        | false =>
          cases hba : lt b a with
          | true => simp [lexLtB, hab, hba] at huv
          | false =>
            have he : a = b := hconn a b hab hba
            subst he
            simp [lexLtB, hab] at huv
            cases hbc : lt a c with
            | true => simp [lexLtB, hbc]
            | false =>
              cases hcb : lt c a with
              | true => simp [lexLtB, hbc, hcb] at hvw
              | false =>
                have he2 : a = c := hconn a c hbc hcb
                subst he2
                simp [lexLtB, hbc] at hvw ⊢
                exact ih bs cs huv hvw

/-- Code-point comparison of characters is asymmetric. -/
theorem charBase_asymm (a b : Char) (h : decide (a < b) = true) : decide (b < a) = false := by
  simp only [decide_eq_true_eq] at h
  simpa using lt_asymm h

/-- Characters that compare below each other in neither direction are
equal. -/
theorem charBase_conn (a b : Char) (h1 : decide (a < b) = false) (h2 : decide (b < a) = false) :
    a = b := by
  simp only [decide_eq_false_iff_not] at h1 h2
  exact le_antisymm (not_lt.mp h2) (not_lt.mp h1)

/-- Code-point comparison of characters is transitive. -/
theorem charBase_trans (a b c : Char) (h1 : decide (a < b) = true) (h2 : decide (b < c) = true) :
    decide (a < c) = true := by
  simp only [decide_eq_true_eq] at h1 h2 ⊢
  exact h1.trans h2

/-- Python string comparison is asymmetric. -/
theorem charLtB_asymm {u v : List Char} (h : charLtB u v = true) : charLtB v u = false :=
  lexLtB_asymm _ charBase_asymm u v h

/-- Code-point lists that compare below each other in neither direction
are equal. -/
theorem charLtB_conn {u v : List Char} (h1 : charLtB u v = false) (h2 : charLtB v u = false) :
    u = v :=
  lexLtB_conn _ charBase_conn u v h1 h2

/-- Python string comparison is transitive. -/
theorem charLtB_trans {u v w : List Char} (h1 : charLtB u v = true) (h2 : charLtB v w = true) :
    charLtB u w = true :=
  lexLtB_trans _ charBase_trans charBase_conn u v w h1 h2

/-- `strLtB` is asymmetric. -/
theorem strLtB_asymm {s t : String} (h : strLtB s t = true) : strLtB t s = false :=
  charLtB_asymm h

/-- Strings that compare below each other in neither direction are
equal. -/
theorem strLtB_conn {s t : String} (h1 : strLtB s t = false) (h2 : strLtB t s = false) :
    s = t :=
  strExt (charLtB_conn h1 h2)

/-- `strLtB` is transitive. -/
theorem strLtB_trans {s t u : String} (h1 : strLtB s t = true) (h2 : strLtB t u = true) :
    strLtB s u = true :=
  charLtB_trans h1 h2

/-- A flattened key always holds at least its two leading strings. -/
theorem flattenKey_ne_nil (x : BFList) : flattenKey x ≠ [] := by
  cases x <;> simp [flattenKey]

/-- Flattening a nested key loses no information. -/
theorem flattenKey_inj : ∀ x y : BFList, flattenKey x = flattenKey y → x = y := by
  intro x
  induction x with
  | two s a =>
    intro y h
    cases y with
    | two t b => simpa [flattenKey] using h
    | three t b q =>
      simp [flattenKey] at h
      exact absurd h.2.2 (flattenKey_ne_nil q)
  | three s a r ih =>
    intro y h
    cases y with
    | two t b =>
      simp [flattenKey] at h
      exact absurd h.2.2 (flattenKey_ne_nil r)
    | three t b q =>
      simp [flattenKey] at h
      simp [h.1, h.2.1, ih q h.2.2]

/-- The element-wise comparison of two nested keys agrees with the
lexicographic comparison of their flattened forms: a two-element key that
agrees on separator and segment is a proper prefix of the corresponding
three-element key. -/
theorem bflistLtB_eq_flatten : ∀ x y : BFList,
    bflistLtB x y = lexLtB strLtB (flattenKey x) (flattenKey y) := by
  intro x
  induction x with
  | two s a =>
    intro y
    cases y with
    | two t b => simp [bflistLtB, flattenKey, lexLtB]
    | three t b q =>
      cases hq : flattenKey q with
      | nil => exact absurd hq (flattenKey_ne_nil q)
      | cons z zs => simp [bflistLtB, flattenKey, lexLtB, hq]
  | three s a r ih =>
    intro y
    cases y with
    | two t b =>
      cases hr : flattenKey r with
      | nil => exact absurd hr (flattenKey_ne_nil r)
      | cons z zs => simp [bflistLtB, flattenKey, lexLtB, hr]
    | three t b q => simp [bflistLtB, flattenKey, lexLtB, ih q]

/-- Python comparison of nested keys is asymmetric. -/
theorem bflistLtB_asymm {x y : BFList} (h : bflistLtB x y = true) : bflistLtB y x = false := by
  rw [bflistLtB_eq_flatten] at h ⊢
  exact lexLtB_asymm strLtB (fun a b hab => strLtB_asymm hab) _ _ h

/-- Nested keys that compare below each other in neither direction are
equal. -/
theorem bflistLtB_conn {x y : BFList} (h1 : bflistLtB x y = false) (h2 : bflistLtB y x = false) :
    x = y := by
  rw [bflistLtB_eq_flatten] at h1 h2
  exact flattenKey_inj x y
    (lexLtB_conn strLtB (fun a b ha hb => strLtB_conn ha hb) _ _ h1 h2)

/-- Python comparison of nested keys is transitive. -/
theorem bflistLtB_trans {x y z : BFList} (h1 : bflistLtB x y = true) (h2 : bflistLtB y z = true) :
    bflistLtB x z = true := by
  rw [bflistLtB_eq_flatten] at h1 h2 ⊢
  exact lexLtB_trans strLtB (fun a b c ha hb => strLtB_trans ha hb)
    (fun a b ha hb => strLtB_conn ha hb) _ _ _ h1 h2

/-- Comparison of combined keys is asymmetric. -/
theorem keyLtB_asymm {k l : Nat × BFList} (h : keyLtB k l = true) : keyLtB l k = false := by
  rcases k with ⟨g, x⟩
  rcases l with ⟨h2, y⟩
  by_cases hg : g < h2
  · simp [keyLtB, hg, Nat.lt_asymm hg]
  · by_cases hg2 : h2 < g
    · simp [keyLtB, hg, hg2] at h
    · simp only [keyLtB, if_neg hg, if_neg hg2] at h ⊢
      simp [bflistLtB_asymm h]

/-- Combined keys that compare below each other in neither direction are
equal. -/
theorem keyLtB_conn {k l : Nat × BFList} (h1 : keyLtB k l = false) (h2 : keyLtB l k = false) :
    k = l := by
  rcases k with ⟨g, x⟩
  rcases l with ⟨h3, y⟩
  by_cases hg : g < h3
  · simp [keyLtB, hg] at h1
  · by_cases hg2 : h3 < g
    · simp [keyLtB, hg2] at h2
    · simp only [keyLtB, if_neg hg, if_neg hg2] at h1 h2
      have hgeq : g = h3 := by omega
      simp [hgeq, bflistLtB_conn h1 h2]

/-- Comparison of combined keys is transitive. -/
theorem keyLtB_trans {k l m : Nat × BFList} (h1 : keyLtB k l = true) (h2 : keyLtB l m = true) :
    keyLtB k m = true := by
  rcases k with ⟨g, x⟩
  rcases l with ⟨h3, y⟩
  rcases m with ⟨i, z⟩
  simp only [keyLtB] at h1 h2 ⊢
  by_cases hgh : g < h3
  · by_cases hhi : h3 < i
    · have hgi : g < i := by omega
      rw [if_pos hgi]
    · by_cases hih : i < h3
      · rw [if_neg hhi, if_pos hih] at h2
        cases h2
      · have he : h3 = i := by omega
        subst he
        rw [if_pos hgh]
  · by_cases hhg : h3 < g
    · rw [if_neg hgh, if_pos hhg] at h1
      cases h1
    · have he : g = h3 := by omega
      subst he
      rw [if_neg hgh, if_neg hhg] at h1
      by_cases hgi : g < i
      · rw [if_pos hgi]
      · by_cases hig : i < g
        · rw [if_neg hgi, if_pos hig] at h2
          cases h2
        · have he2 : g = i := by omega
          subst he2
          rw [if_neg hgi, if_neg hig] at h2 ⊢
          exact bflistLtB_trans h1 h2

/-- An ordering of the shape "may precede when the key of the right does
not compare below the key of the left" is total whenever the key
comparison is asymmetric. -/
theorem leOfLt_total (lt : β → β → Bool) (hasy : ∀ u v : β, lt u v = true → lt v u = false)
    (K : α → β) (x y : α) : lt (K y) (K x) = false ∨ lt (K x) (K y) = false := by
  cases h : lt (K y) (K x) with
  | false => exact Or.inl rfl
  | true => exact Or.inr (hasy _ _ h)

/-- An ordering of that shape is transitive whenever the key comparison
is transitive and connected. -/
theorem leOfLt_trans (lt : β → β → Bool)
    (htr : ∀ u v w : β, lt u v = true → lt v w = true → lt u w = true)
    (hconn : ∀ u v : β, lt u v = false → lt v u = false → u = v)
    (K : α → β) (x y z : α) (hxy : lt (K y) (K x) = false) (hyz : lt (K z) (K y) = false) :
    lt (K z) (K x) = false := by
  cases h : lt (K z) (K x) with
  | false => rfl
  | true =>
    cases h2 : lt (K y) (K z) with
    | true => rw [htr _ _ _ h2 h] at hxy; cases hxy
    | false =>
      have he : K y = K z := hconn _ _ h2 hyz
      rw [← he] at h
      rw [h] at hxy
      cases hxy

/-- `partition` reconstructs its input: when a slash is found, the input
is the part before it, the slash, and the part after it. -/
theorem splitSlash_recon : ∀ cs a b, splitSlash cs = some (a, b) → cs = a ++ '/' :: b := by
  intro cs
  induction cs with
  | nil => intro a b h; simp [splitSlash] at h
  | cons c rest ih =>
    intro a b h
    by_cases hc : c = '/'
    · simp only [splitSlash, if_pos hc] at h
      injection h with h
      injection h with h1 h2
      subst h1
      subst h2
      simp [hc]
    · simp only [splitSlash, if_neg hc] at h
      rw [Option.map_eq_some'] at h
      rcases h with ⟨p, hp, he⟩
      injection he with h1 h2
      subst h2
      rw [← h1]
      simpa using ih p.1 p.2 (by simpa using hp)

/-- Scanning a slash-free remainder yields the two-element key whose
single segment is everything scanned. -/
theorem bfkAux_none : ∀ cs acc, splitSlash cs = none →
    bfkAux acc cs = .two "" ⟨acc.reverse ++ cs⟩ := by
  intro cs
  induction cs with
  | nil => intro acc _; simp [bfkAux]
  | cons c rest ih =>
    intro acc h
    by_cases hc : c = '/'
    · simp [splitSlash, if_pos hc] at h
    · simp only [splitSlash, if_neg hc, Option.map_eq_none'] at h
      simp only [bfkAux, if_neg hc]
      rw [ih (c :: acc) h]
      simp

/-- A slash with nothing after it yields the two-element key with
separator "/". -/
theorem bfkAux_someNil : ∀ cs acc a, splitSlash cs = some (a, []) →
    bfkAux acc cs = .two "/" ⟨acc.reverse ++ a⟩ := by
  intro cs
  induction cs with
  | nil => intro acc a h; simp [splitSlash] at h
  | cons c rest ih =>
    intro acc a h
    by_cases hc : c = '/'
    · simp only [splitSlash, if_pos hc] at h
      injection h with h
      injection h with h1 h2
      subst h2
      simp [bfkAux, hc, ← h1]
    · simp only [splitSlash, if_neg hc, Option.map_eq_some'] at h
      rcases h with ⟨p, hp, he⟩
      injection he with h1 h2
      simp only [bfkAux, if_neg hc]
      rcases p with ⟨p1, p2⟩
      subst h2
      rw [ih (c :: acc) p1 hp]
      simp [← h1]

/-- A slash with a non-empty remainder yields the three-element key whose
tail is the key of the remainder. -/
theorem bfkAux_some : ∀ cs acc a b, splitSlash cs = some (a, b) → b ≠ [] →
    bfkAux acc cs = .three "/" ⟨acc.reverse ++ a⟩ (bfkAux [] b) := by
  intro cs
  induction cs with
  | nil => intro acc a b h _; simp [splitSlash] at h
  | cons c rest ih =>
    intro acc a b h hb
    by_cases hc : c = '/'
    · simp only [splitSlash, if_pos hc] at h
      injection h with h
      injection h with h1 h2
      subst h2
      subst hc
      cases hr : rest with
      | nil => exact absurd hr hb
      | cons d ds =>
        subst hr
        simp [bfkAux, ← h1]
    · simp only [splitSlash, if_neg hc, Option.map_eq_some'] at h
      rcases h with ⟨⟨p1, p2⟩, hp, he⟩
      injection he with h1 h2
      subst h2
      simp only [bfkAux, if_neg hc]
      rw [ih (c :: acc) p1 p2 hp hb]
      simp [← h1]

/-- `breadth_first_key` on a path without slash: the two-element key with
empty separator. -/
theorem bfk_noSlash (s : String) (h : splitSlash s.data = none) :
    breadth_first_key s = .two "" s := by
  rw [breadth_first_key, bfkAux_none s.data [] h]
  simp [strEta]

/-- `breadth_first_key` on a path whose first slash ends it: the
two-element key with separator "/". -/
theorem bfk_slashNil (s : String) (a : List Char) (h : splitSlash s.data = some (a, [])) :
    breadth_first_key s = .two "/" ⟨a⟩ := by
  rw [breadth_first_key, bfkAux_someNil s.data [] a h]
  simp

/-- `breadth_first_key` on a path with text after its first slash: the
three-element key recursing on that text. -/
theorem bfk_slash (s : String) (a b : List Char) (h : splitSlash s.data = some (a, b))
    (hb : b ≠ []) : breadth_first_key s = .three "/" ⟨a⟩ (breadth_first_key ⟨b⟩) := by
  rw [breadth_first_key, bfkAux_some s.data [] a b h hb]
  simp [breadth_first_key]

/-- `"/" in path` holds exactly when `partition` finds a slash. -/
theorem strContains_slash (s : String) : strContains s "/" = (splitSlash s.data).isSome := by
  show hasInfixAux ['/'] s.data = (splitSlash s.data).isSome
  induction s.data with
  | nil => simp [hasInfixAux, splitSlash]
  | cons c rest ih =>
    by_cases hc : c = '/'
    · simp [hasInfixAux, splitSlash, List.isPrefixOf, hc]
    · have hc2 : ('/' == c) = false := by
        simp
        exact fun he => hc he.symm
      simp [hasInfixAux, splitSlash, List.isPrefixOf, hc, hc2, ih]

/-- Two paths with the same `breadth_first_key` are the same code-point
list. -/
theorem bfkAux_inj_fuel : ∀ n cs ds, cs.length ≤ n →
    bfkAux [] cs = bfkAux [] ds → cs = ds := by
  intro n
  induction n with
  | zero =>
    intro cs ds hlen h
    have hcs : cs = [] := List.length_eq_zero.mp (Nat.le_zero.mp hlen)
    subst hcs
    have h0 : splitSlash ([] : List Char) = none := rfl
    rw [bfkAux_none [] [] h0] at h
    cases hds : splitSlash ds with
    | none =>
      rw [bfkAux_none ds [] hds] at h
      injection h with h1 h2
      injection h2 with h2
    | some p =>
      rcases p with ⟨a, b⟩
      cases hb : b with
      | nil =>
        subst hb
        rw [bfkAux_someNil ds [] a hds] at h
        injection h with h1 _
        exact absurd h1 (by decide)
      | cons d dt =>
        subst hb
        rw [bfkAux_some ds [] a _ hds (by simp)] at h
        cases h
  | succ n ih =>
    intro cs ds hlen h
    cases hcs : splitSlash cs with
    | none =>
      rw [bfkAux_none cs [] hcs] at h
      cases hds : splitSlash ds with
      | none =>
        rw [bfkAux_none ds [] hds] at h
        injection h with h1 h2
        injection h2 with h2
      | some p =>
        rcases p with ⟨a, b⟩
        cases hb : b with
        | nil =>
          subst hb
          rw [bfkAux_someNil ds [] a hds] at h
          injection h with h1 _
          exact absurd h1 (by decide)
        | cons d dt =>
          subst hb
          rw [bfkAux_some ds [] a _ hds (by simp)] at h
          cases h
    | some p =>
      rcases p with ⟨a, b⟩
      have hrecon := splitSlash_recon cs a b hcs
      cases hb : b with
      | nil =>
        subst hb
        rw [bfkAux_someNil cs [] a hcs] at h
        cases hds : splitSlash ds with
        | none =>
          rw [bfkAux_none ds [] hds] at h
          injection h with h1 _
          exact absurd h1 (by decide)
        | some q =>
          rcases q with ⟨a2, b2⟩
          cases hb2 : b2 with
          | nil =>
            subst hb2
            rw [bfkAux_someNil ds [] a2 hds] at h
            injection h with h1 h2
            injection h2 with h2
            have hrecon2 := splitSlash_recon ds a2 [] hds
            rw [hrecon, hrecon2]
            simpa using h2
          | cons d dt =>
            subst hb2
            rw [bfkAux_some ds [] a2 _ hds (by simp)] at h
            cases h
      | cons c ct =>
        subst hb
        rw [bfkAux_some cs [] a _ hcs (by simp)] at h
        cases hds : splitSlash ds with
        | none =>
          rw [bfkAux_none ds [] hds] at h
          cases h
        | some q =>
          rcases q with ⟨a2, b2⟩
          cases hb2 : b2 with
          | nil =>
            subst hb2
            rw [bfkAux_someNil ds [] a2 hds] at h
            cases h
          | cons d dt =>
            subst hb2
            rw [bfkAux_some ds [] a2 _ hds (by simp)] at h
            injection h with h1 h2 h3
            injection h2 with h2
            have hrecon2 := splitSlash_recon ds a2 (d :: dt) hds
            have hlen2 : (c :: ct).length ≤ n := by
              rw [hrecon] at hlen
              simp [List.length_append] at hlen
              simp
              omega
            have htail := ih (c :: ct) (d :: dt) hlen2 h3
            rw [hrecon, hrecon2, htail]
            simpa using h2

/-- Distinct paths have distinct `breadth_first_key` values. -/
theorem breadth_first_key_inj {s t : String} (h : breadth_first_key s = breadth_first_key t) :
    s = t :=
  strExt (bfkAux_inj_fuel s.data.length s.data t.data le_rfl h)

/-- Distinct paths have distinct combined keys. -/
theorem keyPath_inj {s t : String} (h : keyPath s = keyPath t) : s = t := by
  rw [keyPath, keyPath, Prod.mk.injEq] at h
  exact breadth_first_key_inj h.2

/-- Two paths whose combined keys compare below each other in neither
direction are the same path. -/
theorem keyPath_conn {s t : String} (h1 : keyLtB (keyPath s) (keyPath t) = false)
    (h2 : keyLtB (keyPath t) (keyPath s) = false) : s = t :=
  keyPath_inj (keyLtB_conn h1 h2)

/-- Bit view of `andNotN`: a bit survives exactly when it is set in `x`
and clear in `y`. -/
theorem testBit_andNotN (x y i : Nat) :
    (andNotN x y).testBit i = (x.testBit i && !(y.testBit i)) := by
  simp only [andNotN, Nat.testBit_xor, Nat.testBit_and]
  cases x.testBit i <;> cases y.testBit i <;> rfl

/-- Clearing two masks in sequence leaves no bit of their union set. -/
theorem andNotN_clear (x a b : Nat) : (andNotN (andNotN x a) b) &&& (a ||| b) = 0 := by
  apply Nat.eq_of_testBit_eq
  intro i
  simp only [Nat.testBit_and, testBit_andNotN, Nat.testBit_or, Nat.zero_testBit]
  cases x.testBit i <;> cases a.testBit i <;> cases b.testBit i <;> rfl

/-- Clearing the same two masks twice is the same as clearing them
once. -/
theorem andNotN_clear_idem (x a b : Nat) :
    andNotN (andNotN (andNotN (andNotN x a) b) a) b = andNotN (andNotN x a) b := by
  apply Nat.eq_of_testBit_eq
  intro i
  simp only [testBit_andNotN]
  cases x.testBit i <;> cases a.testBit i <;> cases b.testBit i <;> rfl

/-- After `external_attr & ~(umask << 16)`, no bit of the umask remains
in the high half that stores the Unix permission field. -/
theorem umask_shift_clear (x u : Nat) : ((andNotN x (u <<< 16)) >>> 16) &&& u = 0 := by
  apply Nat.eq_of_testBit_eq
  intro i
  simp only [Nat.testBit_and, Nat.testBit_shiftRight, testBit_andNotN, Nat.testBit_shiftLeft,
    Nat.zero_testBit]
  have h16 : decide (16 + i ≥ 16) = true := by simp
  have harith : 16 + i - 16 = i := by omega
  rw [h16, harith]
  simp only [Bool.true_and]
  cases x.testBit (16 + i) <;> cases u.testBit i <;> rfl

/-- `external_attr & ~(umask << 16)` leaves every high-half bit outside
the umask unchanged. -/
theorem umask_shift_keep (x u k : Nat) (h : u &&& k = 0) :
    ((andNotN x (u <<< 16)) >>> 16) &&& k = (x >>> 16) &&& k := by
  apply Nat.eq_of_testBit_eq
  intro i
  have hdisj : ¬(u.testBit i = true ∧ k.testBit i = true) := by
    intro hand
    have := congrArg (fun n => n.testBit i) h
    simp only [Nat.testBit_and, Nat.zero_testBit, hand.1, hand.2] at this
    cases this
  simp only [Nat.testBit_and, Nat.testBit_shiftRight, testBit_andNotN, Nat.testBit_shiftLeft]
  have h16 : decide (16 + i ≥ 16) = true := by simp
  have harith : 16 + i - 16 = i := by omega
  rw [h16, harith]
  simp only [Bool.true_and]
  cases hx : x.testBit (16 + i) <;> cases hu : u.testBit i <;> cases hk : k.testBit i <;>
    first
      | rfl
      | exact absurd ⟨hu, hk⟩ hdisj

/-- `external_attr & ~(umask << 16)` leaves the low 16 bits, the DOS
attribute half of the word, unchanged. -/
theorem umask_low16 (x u : Nat) : (andNotN x (u <<< 16)) &&& 0xFFFF = x &&& 0xFFFF := by
  apply Nat.eq_of_testBit_eq
  intro i
  have hmask : (0xFFFF : Nat) = 2 ^ 16 - 1 := by norm_num
  simp only [Nat.testBit_and, testBit_andNotN, Nat.testBit_shiftLeft, hmask,
    Nat.testBit_two_pow_sub_one]
  by_cases hi : i < 16
  · have hd1 : decide (i ≥ 16) = false := by simp; omega
    have hd2 : decide (i < 16) = true := by simp [hi]
    rw [hd1, hd2]
    simp only [Bool.false_and, Bool.not_false, Bool.and_true]
  · have hd1 : decide (i < 16) = false := by simp; omega
    rw [hd1]
    simp only [Bool.and_false]

/-- Stripping a leading part that was just put in front gives back the
original string. -/
theorem removePre_append (pre s : String) : removePre (pre ++ s) pre = s := by
  have hdata : (pre ++ s).data = pre.data ++ s.data := String.data_append pre s
  have hpre : pre.data.isPrefixOf (pre ++ s).data = true := by
    rw [hdata]
    exact List.isPrefixOf_iff_prefix.mpr (List.prefix_append pre.data s.data)
  rw [removePre, if_pos hpre, hdata, List.drop_left, strEta]

/-- Prefixing a member path with the scratch directory and then applying
`filter_` rewrites exactly the metadata fields: the path survives. -/
theorem filter_add (scratch : String) (m : ℚ) (t : TarInfo) :
    filter_ scratch m { t with path := scratch ++ t.path } = pureFilter m t := by
  rw [filter_, pureFilter]
  simp [removePre_append]

/-- Splitting into kept-ends lines loses no byte: the concatenation of
the lines is the original byte string. -/
theorem splitlinesAux_flatten : ∀ acc cs, (splitlinesAux acc cs).flatten = acc.reverse ++ cs := by
  intro acc cs
  induction acc, cs using splitlinesAux.induct <;> simp_all [splitlinesAux]

/-- `data.splitlines(keepends=True)` partitions the data. -/
theorem splitlinesKE_flatten (d : List Nat) : (splitlinesKE d).flatten = d := by
  simpa using splitlinesAux_flatten [] d

/-- `filter_` applied a second time changes nothing. -/
theorem pureFilter_idem (m : ℚ) (t : TarInfo) :
    pureFilter m (pureFilter m t) = pureFilter m t := by
  simp [pureFilter, andNotN_clear_idem]

/-- Any two members are comparable in the rebuild walk order. -/
theorem walkLe_total (t u : TarInfo) : walkLe t u ∨ walkLe u t :=
  leOfLt_total (lexLtB charLtB) (lexLtB_asymm charLtB (fun _ _ hab => charLtB_asymm hab))
    (fun x : TarInfo => splitSegAux [] x.path.data) t u

/-- The rebuild walk order is transitive. -/
theorem walkLe_trans (t u v : TarInfo) (h1 : walkLe t u) (h2 : walkLe u v) : walkLe t v :=
  leOfLt_trans (lexLtB charLtB) (fun a b c ha hb => lexLtB_trans charLtB
      (fun _ _ _ hx hy => charLtB_trans hx hy) (fun _ _ hx hy => charLtB_conn hx hy) a b c ha hb)
    (fun a b ha hb => lexLtB_conn charLtB (fun _ _ hx hy => charLtB_conn hx hy) a b ha hb)
    (fun x : TarInfo => splitSegAux [] x.path.data) t u v h1 h2

/-- Any two paths are comparable in the combined-key order. -/
theorem pathLe_total (a b : String) : pathLe a b ∨ pathLe b a :=
  leOfLt_total keyLtB (fun _ _ huv => keyLtB_asymm huv) keyPath a b

/-- The combined-key order on paths is transitive. -/
theorem pathLe_trans (a b c : String) (h1 : pathLe a b) (h2 : pathLe b c) : pathLe a c :=
  leOfLt_trans keyLtB (fun _ _ _ hu hv => keyLtB_trans hu hv)
    (fun _ _ hu hv => keyLtB_conn hu hv) keyPath a b c h1 h2

/-- The combined-key order on paths is antisymmetric: it never ties two
distinct paths. -/
theorem pathLe_antisymm (a b : String) (h1 : pathLe a b) (h2 : pathLe b a) : a = b :=
  keyPath_conn h2 h1

/-- The entry list `cleanse_metadata` produces: the members in rebuild
walk order, each passed through the metadata filter, the scratch part of
the path coming and going. -/
theorem cleanse_entries_eq (scratch : String) (a : SdistArchive) (m : ℚ) :
    (cleanse_metadata scratch a m).entries =
      (a.entries.insertionSort walkLe).map (pureFilter (max m EARLIEST)) := by
  simp only [cleanse_metadata]
  exact List.map_congr_left (fun t _ => filter_add scratch _ t)

/-- The filtered entry list is still in rebuild walk order, because the
filter does not move the stored path. -/
theorem cleanse_entries_sorted (scratch : String) (a : SdistArchive) (m : ℚ) :
    List.Sorted walkLe (cleanse_metadata scratch a m).entries := by
  rw [cleanse_entries_eq]
  haveI : IsTotal TarInfo walkLe := ⟨walkLe_total⟩
  haveI : IsTrans TarInfo walkLe := ⟨fun t u v => walkLe_trans t u v⟩
  have hs := List.sorted_insertionSort walkLe a.entries
  exact hs.map _ (fun t u h => h)

/-- Archives agreeing on every field are equal. -/
theorem sdistArchive_fields_eq {x y : SdistArchive} (he : x.entries = y.entries)
    (hg : x.gzipMtime = y.gzipMtime) (hf : x.fileMtime = y.fileMtime)
    (ha : x.fileAtime = y.fileAtime) : x = y := by
  cases x
  cases y
  simp only at he hg hf ha
  rw [he, hg, hf, ha]

/-- C1.  Normalizing a gzip-compressed tar archive twice with the same
epoch is idempotent: the second pass reproduces the first pass byte for
byte — same members in the same order with the same metadata and content,
same gzip header time, and same file times — whatever scratch directories
the two passes use. -/
theorem cleanse_metadata_idem (scratch1 scratch2 : String) (a : SdistArchive) (m : ℚ) :
    cleanse_metadata scratch2 (cleanse_metadata scratch1 a m) m = cleanse_metadata scratch1 a m := by
  have hsorted := cleanse_entries_sorted scratch1 a m
  have h2 : (cleanse_metadata scratch2 (cleanse_metadata scratch1 a m) m).entries =
      ((cleanse_metadata scratch1 a m).entries.insertionSort walkLe).map
        (pureFilter (max m EARLIEST)) := cleanse_entries_eq scratch2 _ m
  rw [List.Sorted.insertionSort_eq hsorted] at h2
  have h3 : (cleanse_metadata scratch2 (cleanse_metadata scratch1 a m) m).entries =
      (cleanse_metadata scratch1 a m).entries := by
    rw [h2, cleanse_entries_eq scratch1 a m, List.map_map]
    exact List.map_congr_left (fun t _ => pureFilter_idem _ t)
  exact sdistArchive_fields_eq h3 (by simp [cleanse_metadata]) (by simp [cleanse_metadata])
    (by simp [cleanse_metadata])

/-- C2.  For an epoch below the floor, `cleanse_metadata` stores exactly
315532800 as every member mtime, as the gzip header time, and as the
modification and access times of the archive file: the applied epoch is
`max(candidate, EARLIEST)`. -/
theorem cleanse_metadata_clamps (scratch : String) (a : SdistArchive) (m : ℚ)
    (h : m < EARLIEST) :
    (∀ e ∈ (cleanse_metadata scratch a m).entries, e.mtime = 315532800) ∧
    (cleanse_metadata scratch a m).gzipMtime = 315532800 ∧
    (cleanse_metadata scratch a m).fileMtime = 315532800 ∧
    (cleanse_metadata scratch a m).fileAtime = 315532800 := by
  have hmax : max m EARLIEST = EARLIEST := max_eq_right h.le
  have hearliest : EARLIEST = (315532800 : ℚ) := rfl
  refine ⟨?_, ?_, ?_, ?_⟩
  · intro e he
    rw [cleanse_entries_eq, List.mem_map] at he
    rcases he with ⟨t, _, rfl⟩
    show pyInt (max m EARLIEST) = 315532800
    rw [hmax, pyInt, if_pos (by norm_num [EARLIEST])]
    norm_num [EARLIEST]
  · show max m EARLIEST = 315532800
    rw [hmax, hearliest]
  · show max m EARLIEST = 315532800
    rw [hmax, hearliest]
  · show max m EARLIEST = 315532800
    rw [hmax, hearliest]

/-- Witness for C2 at epoch 0 and a one-member archive. -/
theorem cleanse_metadata_clamps_witness :
    (0 : ℚ) < EARLIEST ∧
    ((∀ e ∈ (cleanse_metadata "t/" ⟨[⟨"pkg/a.py", 511, 1000, 1000, "u", "g", 99, [1, 2]⟩],
        5, 5, 5⟩ 0).entries, e.mtime = 315532800) ∧
      (cleanse_metadata "t/" ⟨[⟨"pkg/a.py", 511, 1000, 1000, "u", "g", 99, [1, 2]⟩],
        5, 5, 5⟩ 0).gzipMtime = 315532800 ∧
      (cleanse_metadata "t/" ⟨[⟨"pkg/a.py", 511, 1000, 1000, "u", "g", 99, [1, 2]⟩],
        5, 5, 5⟩ 0).fileMtime = 315532800 ∧
      (cleanse_metadata "t/" ⟨[⟨"pkg/a.py", 511, 1000, 1000, "u", "g", 99, [1, 2]⟩],
        5, 5, 5⟩ 0).fileAtime = 315532800) :=
  ⟨by norm_num [EARLIEST],
    cleanse_metadata_clamps "t/" ⟨[⟨"pkg/a.py", 511, 1000, 1000, "u", "g", 99, [1, 2]⟩],
      5, 5, 5⟩ 0 (by norm_num [EARLIEST])⟩

/-- C3.  Every member of a normalized tar archive stores uid 0, gid 0,
uname "root", gname "root", and the floor of the clamped epoch as mtime,
whatever the member carried before. -/
theorem cleanse_metadata_resets_ownership (scratch : String) (a : SdistArchive) (m : ℚ)
    (e : TarInfo) (he : e ∈ (cleanse_metadata scratch a m).entries) :
    e.uid = 0 ∧ e.gid = 0 ∧ e.uname = "root" ∧ e.gname = "root" ∧
    e.mtime = ⌊max m EARLIEST⌋ := by
  rw [cleanse_entries_eq, List.mem_map] at he
  rcases he with ⟨t, _, rfl⟩
  refine ⟨rfl, rfl, rfl, rfl, ?_⟩
  show pyInt (max m EARLIEST) = ⌊max m EARLIEST⌋
  have hpos : (0 : ℚ) ≤ max m EARLIEST := by
    have h0 : (0 : ℚ) ≤ EARLIEST := by norm_num [EARLIEST]
    exact h0.trans (le_max_right m EARLIEST)
  rw [pyInt, if_pos hpos]

/-- Witness for C3 at epoch 0 on a one-member archive. -/
theorem cleanse_metadata_resets_ownership_witness :
    (⟨"pkg/a.py", 493, 0, 0, "root", "root", 315532800, [1, 2]⟩ : TarInfo) ∈
      (cleanse_metadata "t/" ⟨[⟨"pkg/a.py", 511, 1000, 1000, "u", "g", 99, [1, 2]⟩],
        5, 5, 5⟩ 0).entries ∧
    ((⟨"pkg/a.py", 493, 0, 0, "root", "root", 315532800, [1, 2]⟩ : TarInfo).uid = 0 ∧
      (⟨"pkg/a.py", 493, 0, 0, "root", "root", 315532800, [1, 2]⟩ : TarInfo).gid = 0 ∧
      (⟨"pkg/a.py", 493, 0, 0, "root", "root", 315532800, [1, 2]⟩ : TarInfo).uname = "root" ∧
      (⟨"pkg/a.py", 493, 0, 0, "root", "root", 315532800, [1, 2]⟩ : TarInfo).gname = "root" ∧
      (⟨"pkg/a.py", 493, 0, 0, "root", "root", 315532800, [1, 2]⟩ : TarInfo).mtime =
        ⌊max (0 : ℚ) EARLIEST⌋) :=
  ⟨by decide,
    cleanse_metadata_resets_ownership "t/" ⟨[⟨"pkg/a.py", 511, 1000, 1000, "u", "g", 99,
      [1, 2]⟩], 5, 5, 5⟩ 0 ⟨"pkg/a.py", 493, 0, 0, "root", "root", 315532800, [1, 2]⟩
      (by decide)⟩

/-- C4.  No group-write or other-write bit survives normalization: tar
members have `mode & (S_IWGRP | S_IWOTH) == 0`, and zip members rewritten
with the default umask 0o022 have those bits clear in the Unix permission
half of `external_attr`, while the owner permission bits, the file-type
bits, and the whole DOS low half stay untouched, as do name and data. -/
theorem permission_invariant (scratch : String) (a : SdistArchive) (m : ℚ)
    (z : List ZipEntry) :
    (∀ e ∈ (cleanse_metadata scratch a m).entries, e.mode &&& (S_IWGRP ||| S_IWOTH) = 0) ∧
    List.Forall₂ (fun x y =>
      (y.external_attr >>> 16) &&& (S_IWGRP ||| S_IWOTH) = 0 ∧
      (y.external_attr >>> 16) &&& 0o700 = (x.external_attr >>> 16) &&& 0o700 ∧
      (y.external_attr >>> 16) &&& 0o170000 = (x.external_attr >>> 16) &&& 0o170000 ∧
      y.external_attr &&& 0xFFFF = x.external_attr &&& 0xFFFF ∧
      y.filename = x.filename ∧ y.data = x.data) z (zipumask z 0o022) := by
  constructor
  · intro e he
    rw [cleanse_entries_eq, List.mem_map] at he
    rcases he with ⟨t, _, rfl⟩
    show (andNotN (andNotN t.mode S_IWGRP) S_IWOTH) &&& (S_IWGRP ||| S_IWOTH) = 0
    exact andNotN_clear t.mode S_IWGRP S_IWOTH
  · rw [zipumask, List.forall₂_map_right_iff, List.forall₂_same]
    intro x _
    have hmask : S_IWGRP ||| S_IWOTH = 0o022 := by decide
    refine ⟨?_, ?_, ?_, ?_, rfl, rfl⟩
    · rw [hmask]
      exact umask_shift_clear x.external_attr 0o022
    · exact umask_shift_keep x.external_attr 0o022 0o700 (by decide)
    · exact umask_shift_keep x.external_attr 0o022 0o170000 (by decide)
    · exact umask_low16 x.external_attr 0o022

/-- C5 counterexample.  On the path "a/" — a slash with nothing after
it, as zip directory members are named — the source returns the
two-element key `["/", "a"]`, not the three-element key
`["/", "a", order_key("")]` the claim prescribes for every path holding a
slash. -/
theorem breadth_first_key_trailing_slash_cex :
    breadth_first_key "a/" = BFList.two "/" "a" ∧
    breadth_first_key "a/" ≠ BFList.three "/" "a" (breadth_first_key "") := by
  decide

/-- C5 amended.  The recursive shape of `breadth_first_key`: a path with
no slash yields the pair `("", path)`; a path whose text after the first
slash is non-empty yields the triple `("/", head, key(rest))`; a path
whose first slash ends it yields the pair `("/", head)`.  Consequently
`order_key("2.py") < order_key("1/x.py")`, and any slash-free path keys
strictly below any path holding a slash. -/
theorem breadth_first_key_spec :
    (∀ s : String, splitSlash s.data = none → breadth_first_key s = BFList.two "" s) ∧
    (∀ (s : String) (a b : List Char), splitSlash s.data = some (a, b) → b ≠ [] →
      breadth_first_key s = BFList.three "/" ⟨a⟩ (breadth_first_key ⟨b⟩)) ∧
    (∀ (s : String) (a : List Char), splitSlash s.data = some (a, []) →
      breadth_first_key s = BFList.two "/" ⟨a⟩) ∧
    (∀ s t : String, strContains s "/" = false → strContains t "/" = true →
      bflistLtB (breadth_first_key s) (breadth_first_key t) = true) ∧
    bflistLtB (breadth_first_key "2.py") (breadth_first_key "1/x.py") = true := by
  refine ⟨bfk_noSlash, fun s a b h hb => bfk_slash s a b h hb,
    fun s a h => bfk_slashNil s a h, ?_, by decide⟩
  intro s t hs ht
  rw [strContains_slash] at hs ht
  have hs2 : splitSlash s.data = none := by
    cases h : splitSlash s.data with
    | none => rfl
    | some p => rw [h] at hs; cases hs
  rw [bfk_noSlash s hs2]
  cases h : splitSlash t.data with
  | none => rw [h] at ht; cases ht
  | some p =>
    rcases p with ⟨a, b⟩
    cases hb : b with
    | nil =>
      subst hb
      rw [bfk_slashNil t a h]
      simp [bflistLtB, show strLtB "" "/" = true from rfl]
    | cons d dt =>
      subst hb
      rw [bfk_slash t a _ h (by simp)]
      simp [bflistLtB, show strLtB "" "/" = true from rfl]

/-- C7 counterexample.  The top-level path "RECORD" is a path one of
whose segments holds "RECORD", yet `key` puts it in group 1, not group 3:
the source tests for the substring "/RECORD", which needs a slash in
front. -/
theorem group_record_segment_cex :
    specRecordSegment "RECORD" = true ∧ group "RECORD" = 1 ∧ group "RECORD" ≠ 3 := by
  decide

/-- C7 amended.  Group 3 is every path holding the substring "/RECORD"
(a non-leading segment starting with "RECORD"), group 2 every remaining
path holding "dist-info", group 1 the rest; sorting by the full key
places ordinary files before dist-info files before RECORD whatever
their alphabetical relationship. -/
theorem group_spec :
    (∀ s : String, strContains s "/RECORD" = true → group s = 3) ∧
    (∀ s : String, strContains s "/RECORD" = false → strContains s "dist-info" = true →
      group s = 2) ∧
    (∀ s : String, strContains s "/RECORD" = false → strContains s "dist-info" = false →
      group s = 1) ∧
    sortPaths ["a.dist-info/RECORD", "a.dist-info/WHEEL", "zzz.py"] =
      ["zzz.py", "a.dist-info/WHEEL", "a.dist-info/RECORD"] := by
  refine ⟨?_, ?_, ?_, by decide⟩
  · intro s h
    rw [group, if_pos h]
  · intro s h1 h2
    rw [group, if_neg (by rw [h1]; exact Bool.false_ne_true), if_pos h2]
  · intro s h1 h2
    rw [group, if_neg (by rw [h1]; exact Bool.false_ne_true),
      if_neg (by rw [h2]; exact Bool.false_ne_true)]

/-- Decoding the encoding of a string gives the string back. -/
theorem decode_encode (s : String) : decodeBytes (encodeStr s) = s := by
  rw [decodeBytes, encodeStr, List.map_map]
  have h : s.data.map (Char.ofNat ∘ Char.toNat) = s.data.map id :=
    List.map_congr_left (fun c _ => Char.ofNat_toNat c)
  rw [h, List.map_id, strEta]

/-- Taking while not-comma stops exactly at the first comma. -/
theorem takeWhile_until_comma :
    ∀ (l r : List Char), (∀ c ∈ l, (c == ',') = false) →
      (l ++ ',' :: r).takeWhile (fun c => !(c == ',')) = l := by
  intro l r
  induction l with
  | nil => intro _; simp [List.takeWhile_cons]
  | cons c t ih =>
    intro h
    have hc := h c (by simp)
    simp only [List.cons_append, List.takeWhile_cons, hc, Bool.not_false, if_pos]
    rw [ih (fun d hd => h d (by simp [hd]))]

/-- `split(",")[0]` of a line made of a comma-free path, a comma and a
remainder is that path. -/
theorem beforeComma_append (pre post : String) (h : ∀ c ∈ pre.data, (c == ',') = false) :
    beforeComma (pre ++ "," ++ post) = pre := by
  rw [beforeComma]
  have hdata : (pre ++ "," ++ post).data = pre.data ++ ',' :: post.data := by
    rw [String.data_append, String.data_append]
    simp [String.data]
  rw [hdata, takeWhile_until_comma pre.data post.data h, strEta]

/-- C6.  The combined key is a total order on paths: two paths that
compare below each other in neither direction are identical; sorting an
already canonically ordered path list returns it unchanged; sorting any
permutation of a canonically ordered list returns that canonical order;
and on a comma-separated manifest line the group of the key is classified
from the text before the first comma. -/
theorem key_total_order :
    (∀ a b : String, keyLtB (keyPath a) (keyPath b) = false →
      keyLtB (keyPath b) (keyPath a) = false → a = b) ∧
    (∀ l : List String, List.Sorted pathLe l → sortPaths l = l) ∧
    (∀ l c : List String, List.Sorted pathLe c → l.Perm c → sortPaths l = c) ∧
    (∀ pre post : String, (∀ ch ∈ pre.data, (ch == ',') = false) →
      (keyLine (encodeStr (pre ++ "," ++ post))).1 = group pre) := by
  refine ⟨fun a b h1 h2 => keyPath_conn h1 h2, ?_, ?_, ?_⟩
  · intro l hl
    exact List.Sorted.insertionSort_eq hl
  · intro l c hc hperm
    haveI : IsTotal String pathLe := ⟨pathLe_total⟩
    haveI : IsTrans String pathLe := ⟨fun a b c => pathLe_trans a b c⟩
    haveI : IsAntisymm String pathLe := ⟨fun a b => pathLe_antisymm a b⟩
    have hs : List.Sorted pathLe (sortPaths l) := List.sorted_insertionSort pathLe l
    have hp : (sortPaths l).Perm c := (List.perm_insertionSort pathLe l).trans hperm
    exact List.eq_of_perm_of_sorted hp hs hc
  · intro pre post h
    show group (beforeComma (decodeBytes (encodeStr (pre ++ "," ++ post)))) = group pre
    rw [decode_encode, beforeComma_append pre post h]

/-- C8 counterexample.  With an explicit SOURCE_DATE_EPOCH override
present, processing an existing archive still rebinds the variable to the
archive's own latest member mtime for the duration of the build: the
override value is not what the build sees. -/
theorem sdist_override_ignored_cex :
    sdist_build_env (some "400000000") "500000000" = some "500000000" ∧
    sdist_build_env (some "400000000") "500000000" ≠ some "400000000" := by
  decide

/-- C8 amended.  For a repository input the explicit override, when
present, is the epoch passed to normalization (then clamped inside it),
taking precedence over the latest commit time; when absent the commit
time is used.  For an existing-archive input the build always sees the
archive's own maximum member mtime as SOURCE_DATE_EPOCH, whatever
override the caller had set. -/
theorem epoch_selection_spec :
    (∀ v c : ℚ, repo_epoch (some v) c = v) ∧
    (∀ c : ℚ, repo_epoch none c = c) ∧
    (∀ (scratch : String) (a : SdistArchive) (v m : ℚ),
      (cleanse_metadata scratch a (repo_epoch (some v) m)).gzipMtime = max v EARLIEST) ∧
    (∀ (env0 : Option String) (latest : String),
      sdist_build_env env0 latest = some latest) := by
  exact ⟨fun v c => rfl, fun c => rfl, fun scratch a v m => rfl, fun env0 latest => rfl⟩

/-- C9.  The replacement sequence of `zipumask` and `_sortwheel`: the
working copy is written under the fresh temporary directory, then the
original is unlinked, then the copy is moved over the archive path.
After the full sequence the rewritten archive sits at the path; after the
unlink but before the move completes, nothing sits at the path — the
original is already gone while the replacement still lives in the
temporary directory. -/
theorem zip_rewrite_window (z : List ZipEntry) :
    (runSteps zipumaskSteps ⟨some z, none⟩).atPath = some (zipumask z 0o022) ∧
    (runSteps (zipumaskSteps.take 2) ⟨some z, none⟩).atPath = none ∧
    (runSteps (zipumaskSteps.take 2) ⟨some z, none⟩).scratch = some (zipumask z 0o022) ∧
    (runSteps sortwheelSteps ⟨some z, none⟩).atPath = some (_sortwheel z) ∧
    (runSteps (sortwheelSteps.take 2) ⟨some z, none⟩).atPath = none := by
  exact ⟨rfl, rfl, rfl, rfl, rfl⟩

/-- Pairwise related lists with equal names have equal name lists. -/
theorem forall₂_names : ∀ {b sw : List ZipEntry},
    List.Forall₂ (fun x y => y.filename = x.filename ∧ y.external_attr = x.external_attr ∧
      (endsWithB x.filename "RECORD" = false → y.data = x.data) ∧
      ∃ ls : List (List Nat), (splitlinesKE x.data).Perm ls ∧ y.data = ls.flatten) b sw →
    sw.map (fun e => e.filename) = b.map (fun e => e.filename) := by
  intro b sw h
  induction h with
  | nil => rfl
  | cons hrel _ ih => simp [ih, hrel.1]

/-- C10.  The zip rewriters never touch member content: `zipumask` keeps
every name and every byte of data, changing only `external_attr`;
`_sortwheel` permutes the members (the multiset of names is unchanged),
keeps attributes, keeps the data of every member not named `*RECORD`, and
rewrites a RECORD member to the concatenation of a permutation of its
kept-ends lines — lines that partition the data exactly. -/
theorem zip_rewrite_frame (z : List ZipEntry) (u : Nat) :
    List.Forall₂ (fun x y => y.filename = x.filename ∧ y.data = x.data) z (zipumask z u) ∧
    ((_sortwheel z).map (fun e => e.filename)).Perm (z.map (fun e => e.filename)) ∧
    (∃ b : List ZipEntry, z.Perm b ∧ List.Forall₂ (fun x y =>
      y.filename = x.filename ∧ y.external_attr = x.external_attr ∧
      (endsWithB x.filename "RECORD" = false → y.data = x.data) ∧
      ∃ ls : List (List Nat), (splitlinesKE x.data).Perm ls ∧ y.data = ls.flatten)
      b (_sortwheel z)) ∧
    (∀ d : List Nat, (splitlinesKE d).flatten = d) := by
  have hforall : List.Forall₂ (fun x y =>
      y.filename = x.filename ∧ y.external_attr = x.external_attr ∧
      (endsWithB x.filename "RECORD" = false → y.data = x.data) ∧
      ∃ ls : List (List Nat), (splitlinesKE x.data).Perm ls ∧ y.data = ls.flatten)
      (z.insertionSort zipLe) (_sortwheel z) := by
    rw [_sortwheel, List.forall₂_map_right_iff, List.forall₂_same]
    intro x _
    cases hr : endsWithB x.filename "RECORD" with
    | true =>
      rw [if_pos rfl]
      refine ⟨rfl, rfl, fun hfalse => Bool.noConfusion hfalse, ?_⟩
      exact ⟨(splitlinesKE x.data).insertionSort lineLe,
        (List.perm_insertionSort lineLe _).symm, rfl⟩
    | false =>
      rw [if_neg Bool.false_ne_true]
      exact ⟨rfl, rfl, fun _ => rfl, splitlinesKE x.data, List.Perm.refl _,
        (splitlinesKE_flatten x.data).symm⟩
  refine ⟨?_, ?_, ⟨z.insertionSort zipLe, (List.perm_insertionSort zipLe z).symm, hforall⟩,
    splitlinesKE_flatten⟩
  · rw [zipumask, List.forall₂_map_right_iff, List.forall₂_same]
    intro x _
    exact ⟨rfl, rfl⟩
  · rw [forall₂_names hforall]
    exact (List.perm_insertionSort zipLe z).map (fun e => e.filename)

end Reproducibly
